import Mathlib

/-!
Verification of the resume-matcher pipeline (`src/main.py`).

Strings are modelled as `List Char` (Python `str`); file contents and
library calls (pdfplumber, docx2txt, file reads) are modelled by an
explicit `FileSystem` oracle; floats are modelled by exact reals, with
scores as exact two-decimal rationals.
-/

namespace ResumeMatcher

/-- Python whitespace class: the characters matched by the regex class
`\s` (and stripped by `str.strip`): ASCII whitespace, the information
separators U+001C..U+001F, and the Unicode space code points. -/
def isPySpace (c : Char) : Bool :=
  c == ' ' || c == '\t' || c == '\n' || c == '\r' || c == '\x0b' || c == '\x0c' ||
  decide (0x1c ≤ c.toNat ∧ c.toNat ≤ 0x1f) ||
  c.toNat == 0x85 || c.toNat == 0xa0 || c.toNat == 0x1680 ||
  decide (0x2000 ≤ c.toNat ∧ c.toNat ≤ 0x200a) ||
  c.toNat == 0x2028 || c.toNat == 0x2029 || c.toNat == 0x202f ||
  c.toNat == 0x205f || c.toNat == 0x3000

/-- Python `str.lower`, character by character: the ASCII case mapping.
Non-ASCII characters are left unchanged here; in `normalize_text` every
non-ASCII character is deleted by the step that follows lower-casing, so
only the ASCII case mapping is observable in this pipeline. -/
def pyLowerChar (c : Char) : Char :=
  if 65 ≤ c.toNat ∧ c.toNat ≤ 90 then Char.ofNat (c.toNat + 32) else c

/-- Lower-casing of a whole string (`text.lower()`). -/
def pyLower (s : List Char) : List Char := s.map pyLowerChar

/-- Does the regex alternation `http\S+|www\.\S+` match at the head of
`l`? It does when `l` starts with the literal `http` or `www.` followed
by at least one non-whitespace character. -/
def urlMatchAt (l : List Char) : Bool :=
  (l.take 4 == ['h', 't', 't', 'p'] || l.take 4 == ['w', 'w', 'w', '.']) &&
  !((l.drop 4).takeWhile (fun c => !isPySpace c)).isEmpty

/-- Remainder of the input after consuming a URL match at the head:
the four literal characters and the greedy `\S+` run. -/
def urlMatchRest (l : List Char) : List Char :=
  (l.drop 4).dropWhile (fun c => !isPySpace c)

/-- Worker of `urlStrip`, structurally recursive on a fuel argument so
that it evaluates by kernel reduction. Every step consumes at least one
character, so with fuel at least the length of the input the fuel is
never exhausted. -/
def urlStripGo : ℕ → List Char → List Char
  | 0, _ => []
  | _ + 1, [] => []
  | fuel + 1, c :: cs =>
    if urlMatchAt (c :: cs) then urlStripGo fuel (urlMatchRest (c :: cs))
    else c :: urlStripGo fuel cs

/-- Embeds `re.sub(r'http\S+|www\.\S+', '', text)`: scan left to right,
delete each match (the literal part plus the greedy non-space run),
resume scanning after the deleted match. -/
def urlStrip (s : List Char) : List Char := urlStripGo s.length s

/-- Embeds `re.sub(r'[^\x00-\x7f]', r'', text)`: delete every character
outside the 7-bit ASCII range. -/
def asciiFilter (s : List Char) : List Char :=
  s.filter (fun c => decide (c.toNat ≤ 0x7f))

/-- Characters of the regex class `[\-\*•–—:]`. Note that `•` (U+2022),
`–` (U+2013) and `—` (U+2014) are outside the ASCII range. -/
def punctClass : List Char := ['-', '*', '•', '–', '—', ':']

/-- One character of `re.sub(r'[\-\*•–—:]', ' ', text)`. -/
def punctChar (c : Char) : Char := if c ∈ punctClass then ' ' else c

/-- Embeds `re.sub(r'[\-\*•–—:]', ' ', text)`: each occurrence of a
class character is replaced by one space. -/
def punctReplace (s : List Char) : List Char := s.map punctChar

/-- Newline class of `re.sub(r'[\n\r]+', ' ', text)`. -/
def isNlChar (c : Char) : Bool := c == '\n' || c == '\r'

/-- Embeds `re.sub(r'[\n\r]+', ' ', text)`: each maximal run of newline
or carriage-return characters becomes a single space. The flag records
whether the scan is inside such a run. -/
def nlCollapseAux : Bool → List Char → List Char
  | _, [] => []
  | inRun, c :: cs =>
    if isNlChar c then
      if inRun then nlCollapseAux true cs else ' ' :: nlCollapseAux true cs
    else c :: nlCollapseAux false cs

/-- Embeds `re.sub(r'\s+', ' ', text)`: each maximal whitespace run
becomes a single space. The flag records whether the scan is inside a
whitespace run. -/
def wsCollapseAux : Bool → List Char → List Char
  | _, [] => []
  | inRun, c :: cs =>
    if isPySpace c then
      if inRun then wsCollapseAux true cs else ' ' :: wsCollapseAux true cs
    else c :: wsCollapseAux false cs

/-- Embeds `str.strip()`: drop whitespace from both ends. -/
def pyStrip (s : List Char) : List Char :=
  (s.dropWhile isPySpace).rdropWhile isPySpace

/-- Collapse whitespace runs and trim: the composition
`re.sub(r'\s+', ' ', text).strip()` ending `normalize_text`. -/
def collapseTrim (s : List Char) : List Char := pyStrip (wsCollapseAux false s)

/-- Embeds `normalize_text` of `src/main.py` (the `isinstance` guard is
not modelled: inputs are always strings here):
lower-case, strip URLs, strip non-ASCII, replace the punctuation class
by spaces, collapse newline runs, collapse whitespace runs and trim. -/
def normalize_text (s : List Char) : List Char :=
  collapseTrim (nlCollapseAux false (punctReplace (asciiFilter (urlStrip (pyLower s)))))

/-- Confidence tier: label and style tag, as returned by
`get_confidence_tier`. -/
structure Tier where
  label : String
  style : String
deriving DecidableEq, Repr

/-- Embeds `get_confidence_tier` of `src/main.py`. Scores are modelled
as exact rationals (Python floats carrying a value rounded to two
decimals). -/
def get_confidence_tier (score : ℚ) : Tier :=
  if score ≥ 80 then ⟨"Tier 1 (Excellent Match)", "bg-success"⟩
  else if score ≥ 60 then ⟨"Tier 2 (Strong Fit)", "bg-primary"⟩
  else if score ≥ 40 then ⟨"Tier 3 (Average Fit)", "bg-warning text-dark"⟩
  else ⟨"Tier 4 (Low Fit)", "bg-danger"⟩

/-- One row of the ranked output (`results.append({...})` in the
`matcher` route). -/
structure MatchResult where
  name : String
  score : ℚ
  tier_label : String
  tier_style : String
deriving DecidableEq, Repr

/-- Insertion step of the descending stable sort: `x` goes in front of
the first element whose score is not strictly greater, so among equal
scores the element inserted earlier (the one earlier in the original
list) stays first. -/
def insertDesc (x : MatchResult) : List MatchResult → List MatchResult
  | [] => [x]
  | y :: ys => if x.score ≥ y.score then x :: y :: ys else y :: insertDesc x ys

/-- Embeds `results.sort(key=lambda x: x['score'], reverse=True)`.
Python's sort is stable and `reverse=True` reverses the comparison, not
the list, so the result is the unique permutation that is descending by
score with ties in original order; this insertion sort computes exactly
that permutation. -/
def sortByScoreDesc : List MatchResult → List MatchResult
  | [] => []
  | x :: xs => insertDesc x (sortByScoreDesc xs)

/-- Outcome of the extension dispatch in `extract_text`. -/
inductive ExtKind
  | pdf
  | docx
  | txt
  | other
deriving DecidableEq, Repr

/-- Extension dispatch of `extract_text`: the source tests
`file_path.lower().endswith(".pdf")`, then `".docx"`, then `".txt"`,
each on the lower-cased path. -/
def kindOf (path : List Char) : ExtKind :=
  if ".pdf".data.isSuffixOf (pyLower path) then .pdf
  else if ".docx".data.isSuffixOf (pyLower path) then .docx
  else if ".txt".data.isSuffixOf (pyLower path) then .txt
  else .other

/-- Oracle for the document libraries and the file system: `none`
models a raised exception (corrupt file, unreadable encoding, I/O
error). A PDF is a list of pages; each page's `extract_text()` may
yield `none` (no text) or a string. -/
structure FileSystem where
  pdfOpen : List Char → Option (List (Option String))
  docxProcess : List Char → Option String
  readTxt : List Char → Option String

/-- Embeds `extract_text_from_pdf`: concatenate the text of every page
followed by a newline, skipping falsy page text (`None` or the empty
string); any exception yields the empty string. -/
def extract_text_from_pdf (fs : FileSystem) (path : List Char) : String :=
  match fs.pdfOpen path with
  | none => ""
  | some pages =>
    pages.foldl (fun acc pt =>
      match pt with
      | none => acc
      | some t => if t = "" then acc else acc ++ t ++ "\n") ""

/-- Embeds `extract_text_from_docx`: the library result, or the empty
string on any exception. -/
def extract_text_from_docx (fs : FileSystem) (path : List Char) : String :=
  match fs.docxProcess path with
  | none => ""
  | some t => t

/-- Embeds `extract_text_from_txt`: the file contents read as UTF-8, or
the empty string on any exception. -/
def extract_text_from_txt (fs : FileSystem) (path : List Char) : String :=
  match fs.readTxt path with
  | none => ""
  | some t => t

/-- Embeds `extract_text` of `src/main.py`: dispatch on the lower-cased
path suffix; any other extension yields the empty string. -/
def extract_text (fs : FileSystem) (path : List Char) : String :=
  match kindOf path with
  | .pdf => extract_text_from_pdf fs path
  | .docx => extract_text_from_docx fs path
  | .txt => extract_text_from_txt fs path
  | .other => ""

/-- Word character of the vectorizer's default token pattern
`\b\w\w+\b`, restricted to ASCII; every string this program feeds the
vectorizer is a `normalize_text` output and hence pure ASCII. -/
def pyWordChar (c : Char) : Bool := c.isAlphanum || c == '_'

/-- Tokenizer worker: `acc` holds the current (reversed) run of word
characters. A maximal run of length at least two is one token; shorter
runs are dropped, exactly as `\b\w\w+\b` does. -/
def tokenizeAux : List Char → List Char → List String
  | [], acc => if acc.length ≥ 2 then [String.mk acc.reverse] else []
  | c :: cs, acc =>
    if pyWordChar c then tokenizeAux cs (c :: acc)
    else if acc.length ≥ 2 then String.mk acc.reverse :: tokenizeAux cs []
    else tokenizeAux cs []

/-- Tokens of one document under the vectorizer's default analyzer:
maximal word-character runs of length at least two. -/
def tokenize (s : List Char) : List String := tokenizeAux s []

/-- Analyzer of the vectorizer: lower-case the document (the
vectorizer's default preprocessing), then tokenize. -/
def docTokens (d : List Char) : List String := tokenize (pyLower d)

/-- Fixed English stop-word list of the vectorizer library
(`sklearn.feature_extraction.text.ENGLISH_STOP_WORDS`). -/
def ENGLISH_STOP_WORDS : List String :=
  ["a", "about", "above", "across", "after", "afterwards", "again", "against",
   "all", "almost", "alone", "along", "already", "also", "although", "always",
   "am", "among", "amongst", "amoungst", "amount", "an", "and", "another",
   "any", "anyhow", "anyone", "anything", "anyway", "anywhere", "are",
   "around", "as", "at", "back", "be", "became", "because", "become",
   "becomes", "becoming", "been", "before", "beforehand", "behind", "being",
   "below", "beside", "besides", "between", "beyond", "bill", "both",
   "bottom", "but", "by", "call", "can", "cannot", "cant", "co", "con",
   "could", "couldnt", "cry", "de", "describe", "detail", "do", "done",
   "down", "due", "during", "each", "eg", "eight", "either", "eleven",
   "else", "elsewhere", "empty", "enough", "etc", "even", "ever", "every",
   "everyone", "everything", "everywhere", "except", "few", "fifteen",
   "fifty", "fill", "find", "fire", "first", "five", "for", "former",
   "formerly", "forty", "found", "four", "from", "front", "full", "further",
   "get", "give", "go", "had", "has", "hasnt", "have", "he", "hence", "her",
   "here", "hereafter", "hereby", "herein", "hereupon", "hers", "herself",
   "him", "himself", "his", "how", "however", "hundred", "i", "ie", "if",
   "in", "inc", "indeed", "interest", "into", "is", "it", "its", "itself",
   "keep", "last", "latter", "latterly", "least", "less", "ltd", "made",
   "many", "may", "me", "meanwhile", "might", "mill", "mine", "more",
   "moreover", "most", "mostly", "move", "much", "must", "my", "myself",
   "name", "namely", "neither", "never", "nevertheless", "next", "nine",
   "no", "nobody", "none", "noone", "nor", "not", "nothing", "now",
   "nowhere", "of", "off", "often", "on", "once", "one", "only", "onto",
   "or", "other", "others", "otherwise", "our", "ours", "ourselves", "out",
   "over", "own", "part", "per", "perhaps", "please", "put", "rather", "re",
   "same", "see", "seem", "seemed", "seeming", "seems", "serious", "several",
   "she", "should", "show", "side", "since", "sincere", "six", "sixty",
   "so", "some", "somehow", "someone", "something", "sometime", "sometimes",
   "somewhere", "still", "such", "system", "take", "ten", "than", "that",
   "the", "their", "them", "themselves", "then", "thence", "there",
   "thereafter", "thereby", "therefore", "therein", "thereupon", "these",
   "they", "thick", "thin", "third", "this", "those", "though", "three",
   "through", "throughout", "thru", "thus", "to", "together", "too", "top",
   "toward", "towards", "twelve", "twenty", "two", "un", "under", "until",
   "up", "upon", "us", "very", "via", "was", "we", "well", "were", "what",
   "whatever", "when", "whence", "whenever", "where", "whereafter",
   "whereas", "whereby", "wherein", "whereupon", "wherever", "whether",
   "which", "while", "whither", "who", "whoever", "whole", "whom", "whose",
   "why", "will", "with", "within", "without", "would", "yet", "you",
   "your", "yours", "yourself", "yourselves"]

/-- The domain-specific stop words of `src/main.py`. -/
def custom_words : List String :=
  ["skills", "experience", "candidate", "job", "responsibilities"]

/-- The stop-word set passed to the vectorizer:
`list(sk_text.ENGLISH_STOP_WORDS.union(custom_words))`. Only membership
in this list is ever used, so list order is irrelevant. -/
def combined_stopwords : List String := ENGLISH_STOP_WORDS ++ custom_words

/-- Vocabulary the vectorizer fits on the corpus: every token of every
document that is not a stop word, without duplicates. The vectorizer
orders the vocabulary alphabetically; no stated property depends on the
order, so first-occurrence order is used here. -/
def vocabOf (docs : List (List Char)) : List String :=
  ((docs.map docTokens).flatten.filter (fun t => !combined_stopwords.contains t)).dedup

/-- Document frequency of term `t`: the number of corpus documents
containing it. -/
def dfOf (docs : List (List Char)) (t : String) : ℕ :=
  docs.countP (fun d => (docTokens d).contains t)

/-- Smoothed inverse document frequency of the vectorizer
(`smooth_idf=True` default): `ln((1 + n) / (1 + df)) + 1`. -/
noncomputable def idfOf (docs : List (List Char)) (t : String) : ℝ :=
  Real.log ((1 + docs.length) / (1 + dfOf docs t)) + 1

/-- TF-IDF row of one document over the fitted vocabulary: raw term
count times smoothed idf. The vectorizer additionally L2-normalizes
each row; composed with the cosine similarity below, which itself
divides by the norms and maps zero rows to zero, that normalization
cancels, so rows are modelled unnormalized. -/
noncomputable def tfidfVec (docs : List (List Char)) (d : List Char) : List ℝ :=
  (vocabOf docs).map (fun t => ((docTokens d).count t : ℝ) * idfOf docs t)

/-- Dot product of two weight rows. -/
noncomputable def dotL (u v : List ℝ) : ℝ :=
  (List.zipWith (fun a b => a * b) u v).sum

/-- Embeds the library's cosine similarity of two rows: the dot product
divided by the product of the Euclidean norms, with a zero row giving
similarity zero (the library normalizes zero rows to zero). -/
noncomputable def cosineSimilarity (u v : List ℝ) : ℝ :=
  if dotL u u = 0 ∨ dotL v v = 0 then 0
  else dotL u v / (Real.sqrt (dotL u u) * Real.sqrt (dotL v v))

/-- Message of the `ValueError` the vectorizer raises when no term
survives tokenization and stop-word removal. -/
def emptyVocabMsg : String :=
  "empty vocabulary; perhaps the documents only contain stop words"

/-- Embeds lines 131-134 of `src/main.py`: fit the vectorizer on the
whole corpus (job description first) and compare each resume row with
the job-description row. `fit_transform` raises on an empty vocabulary;
that exception is the `.error` case, which the route does not catch. -/
noncomputable def simEngine (docs : List (List Char)) : Except String (List ℝ) :=
  if vocabOf docs = [] then .error emptyVocabMsg
  else
    match docs with
    | [] => .ok []
    | jd :: rest =>
      .ok (rest.map (fun d => cosineSimilarity (tfidfVec docs jd) (tfidfVec docs d)))

/-- Rounding of a real to the nearest integer, ties to even: the value
Python's `round` computes. -/
noncomputable def halfEvenInt (x : ℝ) : ℤ :=
  if x - ⌊x⌋ < 1 / 2 then ⌊x⌋
  else if 1 / 2 < x - ⌊x⌋ then ⌊x⌋ + 1
  else if Even ⌊x⌋ then ⌊x⌋ else ⌊x⌋ + 1

/-- Embeds Python's `round(v, 2)`: the nearest two-decimal value, ties
to even, as an exact rational. -/
noncomputable def pyRound2 (v : ℝ) : ℚ := (halfEvenInt (v * 100) : ℚ) / 100

/-- Embeds the result-assembly loop of the `matcher` route: for each
resume, `score = round(sim * 100, 2)` and its confidence tier. -/
noncomputable def assembleResults (names : List String) (sims : List ℝ) : List MatchResult :=
  List.zipWith (fun n s =>
    let score := pyRound2 (s * 100)
    let tier := get_confidence_tier score
    ⟨n, score, tier.label, tier.style⟩) names sims

/-- Inbound request of the `matcher` route: the pasted job description
and the filenames of the uploaded resumes (file contents are reached
through the `FileSystem` oracle under `uploads/<filename>`). -/
structure MatcherRequest where
  job_description : String
  resume_files : List String

/-- Successful response of the `matcher` route: banner message, top
five ranked results, and the full ranked name/score series for the
chart. -/
structure MatcherResponse where
  message : String
  results : List MatchResult
  chart_data : List (String × ℚ)
deriving DecidableEq

/-- Validation message for a missing job description. -/
def jdErrorMsg : String := "Please paste a job description to begin matching."

/-- Validation message for an empty resume batch. -/
def filesErrorMsg : String := "Please upload at least one resume file."

/-- Names of the resumes the `matcher` loop processes: the loop body is
guarded by `if resume_file.filename`, so files with an empty filename
are skipped. -/
def uploadedNames (req : MatcherRequest) : List String :=
  req.resume_files.filter (fun f => f ≠ "")

/-- Corpus the route hands the similarity engine: the normalized job
description at index 0, then each processed resume's normalized
extracted text (files are saved under `uploads/<filename>` and read
back through the oracle), in upload order. -/
def corpusOf (fs : FileSystem) (req : MatcherRequest) : List (List Char) :=
  normalize_text req.job_description.data ::
    (uploadedNames req).map
      (fun n => normalize_text (extract_text fs ("uploads/" ++ n).data).data)

/-- Embeds the `matcher` route of `src/main.py`: validation, per-file
extraction and normalization, similarity, assembly, descending stable
sort, top five plus chart series. An `.error` is a render of the page
with that validation message, or, for `emptyVocabMsg`, the uncaught
library exception. -/
noncomputable def matcher (fs : FileSystem) (req : MatcherRequest) : Except String MatcherResponse :=
  if req.job_description = "" then .error jdErrorMsg
  else if req.resume_files.isEmpty || req.resume_files.all (fun f => f == "") then
    .error filesErrorMsg
  else
    match simEngine (corpusOf fs req) with
    | .error e => .error e
    | .ok sims =>
      let results := sortByScoreDesc (assembleResults (uploadedNames req) sims)
      .ok ⟨"Analysis Complete. Top Matches:", results.take 5,
           results.map (fun r => (r.name, r.score))⟩

/-- Canonical spacing shape of a collapsed-and-trimmed string: every
whitespace character is a plain space, no two adjacent characters are
both whitespace, and neither end is whitespace. -/
def canonicalSpacing (s : List Char) : Prop :=
  (∀ c ∈ s, isPySpace c = true → c = ' ') ∧
  List.Chain' (fun a b => ¬(isPySpace a = true ∧ isPySpace b = true)) s ∧
  (∀ c, s.head? = some c → isPySpace c = false) ∧
  (∀ c, s.getLast? = some c → isPySpace c = false)

lemma map_id_of_mem {f : Char → Char} {s : List Char} (h : ∀ c ∈ s, f c = c) :
    s.map f = s := by
  induction s with
  | nil => rfl
  | cons a as ih =>
    simp only [List.map_cons, List.cons.injEq]
    exact ⟨h a (List.mem_cons_self a as), ih fun c hc => h c (List.mem_cons_of_mem a hc)⟩

lemma mem_of_mem_urlStripGo {c : Char} :
    ∀ {fuel : ℕ} {s : List Char}, c ∈ urlStripGo fuel s → c ∈ s := by
  intro fuel
  induction fuel with
  | zero => intro s h; simp [urlStripGo] at h
  | succ n ih =>
    intro s h
    match s with
    | [] => simp [urlStripGo] at h
    | a :: as =>
      rw [urlStripGo] at h
      split at h
      · have h2 : List.Sublist (urlMatchRest (a :: as)) (a :: as) := by
          have hs := List.dropWhile_sublist (l := (a :: as).drop 4)
            (p := fun c => !isPySpace c)
          exact hs.trans (List.drop_sublist (n := 4) (l := a :: as))
        exact h2.subset (ih h)
      · rcases List.mem_cons.mp h with h1 | h1
        · exact h1 ▸ List.mem_cons_self a as
        · exact List.mem_cons_of_mem a (ih h1)

lemma mem_of_mem_urlStrip {c : Char} {s : List Char} (h : c ∈ urlStrip s) : c ∈ s :=
  mem_of_mem_urlStripGo h

lemma mem_of_mem_nlCollapse {c : Char} :
    ∀ {b : Bool} {s : List Char}, c ∈ nlCollapseAux b s →
      c = ' ' ∨ (c ∈ s ∧ isNlChar c = false) := by
  intro b s
  induction s generalizing b with
  | nil => intro h; simp [nlCollapseAux] at h
  | cons a as ih =>
    intro h
    rw [nlCollapseAux] at h
    by_cases ha : isNlChar a = true
    · rw [if_pos ha] at h
      rcases b with _ | _
      · simp only [Bool.false_eq_true, if_false, List.mem_cons] at h
        rcases h with h | h
        · exact Or.inl h
        · rcases ih h with h1 | h1
          · exact Or.inl h1
          · exact Or.inr ⟨List.mem_cons_of_mem a h1.1, h1.2⟩
      · rcases ih h with h1 | h1
        · exact Or.inl h1
        · exact Or.inr ⟨List.mem_cons_of_mem a h1.1, h1.2⟩
    · rw [if_neg ha] at h
      rcases List.mem_cons.mp h with h1 | h1
      · subst h1
        exact Or.inr ⟨List.mem_cons_self c as, by revert ha; cases isNlChar c <;> simp⟩
      · rcases ih h1 with h2 | h2
        · exact Or.inl h2
        · exact Or.inr ⟨List.mem_cons_of_mem a h2.1, h2.2⟩

lemma mem_of_mem_wsCollapse {c : Char} :
    ∀ {b : Bool} {s : List Char}, c ∈ wsCollapseAux b s →
      c = ' ' ∨ (c ∈ s ∧ isPySpace c = false) := by
  intro b s
  induction s generalizing b with
  | nil => intro h; simp [wsCollapseAux] at h
  | cons a as ih =>
    intro h
    rw [wsCollapseAux] at h
    by_cases ha : isPySpace a = true
    · rw [if_pos ha] at h
      rcases b with _ | _
      · simp only [Bool.false_eq_true, if_false, List.mem_cons] at h
        rcases h with h | h
        · exact Or.inl h
        · rcases ih h with h1 | h1
          · exact Or.inl h1
          · exact Or.inr ⟨List.mem_cons_of_mem a h1.1, h1.2⟩
      · rcases ih h with h1 | h1
        · exact Or.inl h1
        · exact Or.inr ⟨List.mem_cons_of_mem a h1.1, h1.2⟩
    · rw [if_neg ha] at h
      rcases List.mem_cons.mp h with h1 | h1
      · subst h1
        exact Or.inr ⟨List.mem_cons_self c as, by revert ha; cases isPySpace c <;> simp⟩
      · rcases ih h1 with h2 | h2
        · exact Or.inl h2
        · exact Or.inr ⟨List.mem_cons_of_mem a h2.1, h2.2⟩

lemma pyStrip_sublist (s : List Char) : List.Sublist (pyStrip s) s := by
  have h1 : List.Sublist (List.rdropWhile isPySpace (s.dropWhile isPySpace))
      (s.dropWhile isPySpace) :=
    ( List.rdropWhile_prefix isPySpace (s.dropWhile isPySpace)).sublist
  exact h1.trans (List.dropWhile_sublist (p := isPySpace) (l := s))

lemma mem_of_mem_pyStrip {c : Char} {s : List Char} (h : c ∈ pyStrip s) : c ∈ s :=
  (pyStrip_sublist s).subset h

lemma wsCollapse_true_head : ∀ (s : List Char) {c : Char},
    (wsCollapseAux true s).head? = some c → isPySpace c = false := by
  intro s
  induction s with
  | nil => intro c h; simp [wsCollapseAux] at h
  | cons a as ih =>
    intro c h
    rw [wsCollapseAux] at h
    by_cases ha : isPySpace a = true
    · rw [if_pos ha, if_pos rfl] at h
      exact ih h
    · rw [if_neg ha] at h
      simp only [List.head?_cons, Option.some.injEq] at h
      subst h
      simpa using ha

lemma wsCollapse_chain : ∀ (b : Bool) (s : List Char),
    List.Chain' (fun x y => ¬(isPySpace x = true ∧ isPySpace y = true)) (wsCollapseAux b s) := by
  intro b s
  induction s generalizing b with
  | nil => simp [wsCollapseAux]
  | cons a as ih =>
    rw [wsCollapseAux]
    by_cases ha : isPySpace a = true
    · rw [if_pos ha]
      rcases b with _ | _
      · simp only [Bool.false_eq_true, if_false]
        refine List.chain'_cons'.mpr ⟨?_, ih true⟩
        intro y hy
        intro hcon
        exact absurd (wsCollapse_true_head as hy) (by simp [hcon.2])
      · exact ih true
    · rw [if_neg ha]
      refine List.chain'_cons'.mpr ⟨?_, ih false⟩
      intro y hy hcon
      exact ha hcon.1

lemma dropWhile_head_not {p : Char → Bool} : ∀ {l : List Char} {c : Char},
    (l.dropWhile p).head? = some c → p c = false := by
  intro l
  induction l with
  | nil => intro c h; simp [List.dropWhile] at h
  | cons a as ih =>
    intro c h
    rw [List.dropWhile_cons] at h
    by_cases ha : p a = true
    · rw [if_pos ha] at h
      exact ih h
    · rw [if_neg ha] at h
      simp only [List.head?_cons, Option.some.injEq] at h
      subst h
      simpa using ha

lemma head?_of_rdropWhile {p : Char → Bool} {l : List Char} {c : Char}
    (h : (List.rdropWhile p l).head? = some c) : l.head? = some c := by
  obtain ⟨t, ht⟩ := List.rdropWhile_prefix p l
  have hne : List.rdropWhile p l ≠ [] := by
    intro hnil
    rw [hnil] at h
    simp at h
  rw [← ht, List.head?_append_of_ne_nil _ hne]
  exact h

lemma pyStrip_head {s : List Char} {c : Char}
    (h : (pyStrip s).head? = some c) : isPySpace c = false := by
  rw [pyStrip] at h
  exact dropWhile_head_not (head?_of_rdropWhile h)

lemma pyStrip_getLast {s : List Char} {c : Char}
    (h : (pyStrip s).getLast? = some c) : isPySpace c = false := by
  rw [pyStrip] at h
  have hne : List.rdropWhile isPySpace (s.dropWhile isPySpace) ≠ [] := by
    intro hnil
    rw [hnil] at h
    simp at h
  have h2 := List.rdropWhile_last_not isPySpace (s.dropWhile isPySpace) hne
  rw [List.getLast?_eq_getLast _ hne] at h
  simp only [Option.some.injEq] at h
  subst h
  revert h2
  cases isPySpace ((List.rdropWhile isPySpace (s.dropWhile isPySpace)).getLast hne) <;> simp

lemma pyStrip_chain {R : Char → Char → Prop} {s : List Char}
    (h : List.Chain' R s) : List.Chain' R (pyStrip s) := by
  rw [pyStrip]
  obtain ⟨t, ht⟩ := List.rdropWhile_prefix isPySpace (s.dropWhile isPySpace)
  obtain ⟨u, hu⟩ := List.dropWhile_suffix (l := s) isPySpace
  have h1 : List.Chain' R (s.dropWhile isPySpace) := by
    rw [← hu] at h
    exact h.right_of_append
  rw [← ht] at h1
  exact h1.left_of_append

lemma canonical_collapseTrim (s : List Char) : canonicalSpacing (collapseTrim s) := by
  refine ⟨?_, ?_, ?_, ?_⟩
  · intro c hc hsp
    have h1 := mem_of_mem_pyStrip hc
    rcases mem_of_mem_wsCollapse h1 with h2 | h2
    · exact h2
    · rw [h2.2] at hsp
      exact absurd hsp (by simp)
  · exact pyStrip_chain (wsCollapse_chain false s)
  · intro c hc
    exact pyStrip_head hc
  · intro c hc
    exact pyStrip_getLast hc

lemma wsCollapse_eq_self {s : List Char}
    (hb : ∀ c ∈ s, isPySpace c = true → c = ' ')
    (hc : List.Chain' (fun x y => ¬(isPySpace x = true ∧ isPySpace y = true)) s) :
    wsCollapseAux false s = s ∧
      ((∀ c, s.head? = some c → isPySpace c = false) → wsCollapseAux true s = s) := by
  induction s with
  | nil => exact ⟨rfl, fun _ => rfl⟩
  | cons a as ih =>
    have hb' : ∀ c ∈ as, isPySpace c = true → c = ' ' :=
      fun c hcm => hb c (List.mem_cons_of_mem a hcm)
    have hc' := hc.tail
    simp only [List.tail_cons] at hc'
    obtain ⟨ih1, ih2⟩ := ih hb' hc'
    by_cases ha : isPySpace a = true
    · have haeq : a = ' ' := hb a (List.mem_cons_self a as) ha
      have hnext : ∀ c, as.head? = some c → isPySpace c = false := by
        intro c hhd
        have hrel := List.chain'_cons'.mp hc
        have := hrel.1 c hhd
        revert this ha
        cases isPySpace c <;> cases isPySpace a <;> simp
      constructor
      · rw [wsCollapseAux, if_pos ha, if_neg (by simp), ih2 hnext, haeq]
      · intro hh
        exact absurd (hh a rfl) (by simp [ha])
    · constructor
      · rw [wsCollapseAux, if_neg ha, ih1]
      · intro _
        rw [wsCollapseAux, if_neg ha, ih1]

lemma pyStrip_eq_self {s : List Char}
    (hh : ∀ c, s.head? = some c → isPySpace c = false)
    (hl : ∀ c, s.getLast? = some c → isPySpace c = false) :
    pyStrip s = s := by
  rw [pyStrip]
  have h1 : s.dropWhile isPySpace = s := by
    cases s with
    | nil => rfl
    | cons a as =>
      rw [List.dropWhile_cons, if_neg (by simp [hh a rfl])]
  rw [h1]
  rw [List.rdropWhile_eq_self_iff]
  intro hne
  have := hl (s.getLast hne) (List.getLast?_eq_getLast s hne)
  simp [this]

lemma collapseTrim_eq_self {s : List Char} (h : canonicalSpacing s) :
    collapseTrim s = s := by
  obtain ⟨h1, h2, h3, h4⟩ := h
  rw [collapseTrim, (wsCollapse_eq_self h1 h2).1, pyStrip_eq_self h3 h4]

lemma collapseTrim_idem (s : List Char) :
    collapseTrim (collapseTrim s) = collapseTrim s :=
  collapseTrim_eq_self (canonical_collapseTrim s)

lemma pyLowerChar_not_upper (c : Char) :
    ¬(65 ≤ (pyLowerChar c).toNat ∧ (pyLowerChar c).toNat ≤ 90) := by
  rw [pyLowerChar]
  by_cases h : 65 ≤ c.toNat ∧ c.toNat ≤ 90
  · rw [if_pos h]
    have hv : (c.toNat + 32).isValidChar := Or.inl (by omega)
    have heq : (Char.ofNat (c.toNat + 32)).toNat = c.toNat + 32 := by
      rw [Char.ofNat, dif_pos hv]
      rfl
    rw [heq]
    omega
  · rw [if_neg h]
    exact h

lemma normalize_char_facts {c : Char} {s : List Char} (h : c ∈ normalize_text s) :
    c.toNat ≤ 0x7f ∧ ¬(65 ≤ c.toNat ∧ c.toNat ≤ 90) ∧ c ∉ punctClass ∧
      isNlChar c = false ∧ (isPySpace c = true → c = ' ') := by
  have hsp : ∀ facts : Prop, (c = ' ' → facts) → (c ≠ ' ' → facts) → facts := by
    intro facts h1 h2
    by_cases hc : c = ' '
    · exact h1 hc
    · exact h2 hc
  rw [normalize_text, collapseTrim] at h
  have h1 := mem_of_mem_pyStrip h
  rcases mem_of_mem_wsCollapse h1 with hc | ⟨h2, hns⟩
  · subst hc
    exact ⟨by decide, by decide, by decide, by decide, fun _ => rfl⟩
  · rcases mem_of_mem_nlCollapse h2 with hc | ⟨h3, hnl⟩
    · subst hc
      exact ⟨by decide, by decide, by decide, by decide, fun _ => rfl⟩
    · obtain ⟨d, hd, hdc⟩ := List.mem_map.mp h3
      rw [punctChar] at hdc
      by_cases hdp : d ∈ punctClass
      · rw [if_pos hdp] at hdc
        subst hdc
        exact ⟨by decide, by decide, by decide, by decide, fun _ => rfl⟩
      · rw [if_neg hdp] at hdc
        subst hdc
        have h4 := List.mem_filter.mp hd
        have hascii : (d.toNat ≤ 0x7f) := by simpa using h4.2
        have h5 := mem_of_mem_urlStrip h4.1
        obtain ⟨e, _, hede⟩ := List.mem_map.mp h5
        have hup : ¬(65 ≤ d.toNat ∧ d.toNat ≤ 90) := hede ▸ pyLowerChar_not_upper e
        exact ⟨hascii, hup, hdp, hnl, fun hcon => absurd hcon (by simp [hns])⟩

lemma canonical_normalize (s : List Char) : canonicalSpacing (normalize_text s) := by
  rw [normalize_text]
  exact canonical_collapseTrim _

lemma nlCollapse_eq_self {s : List Char} (h : ∀ c ∈ s, isNlChar c = false) :
    ∀ b, nlCollapseAux b s = s := by
  induction s with
  | nil => intro b; rfl
  | cons a as ih =>
    intro b
    have ha := h a (List.mem_cons_self a as)
    rw [nlCollapseAux, if_neg (by simp [ha]),
      ih (fun c hc => h c (List.mem_cons_of_mem a hc)) false]

lemma punctReplace_eq_self {s : List Char} (h : ∀ c ∈ s, c ∉ punctClass) :
    punctReplace s = s :=
  map_id_of_mem fun c hc => by rw [punctChar, if_neg (h c hc)]

lemma asciiFilter_eq_self {s : List Char} (h : ∀ c ∈ s, c.toNat ≤ 0x7f) :
    asciiFilter s = s := by
  rw [asciiFilter]
  rw [List.filter_eq_self]
  intro c hc
  simpa using h c hc

lemma pyLower_eq_self {s : List Char} (h : ∀ c ∈ s, ¬(65 ≤ c.toNat ∧ c.toNat ≤ 90)) :
    pyLower s = s :=
  map_id_of_mem fun c hc => by rw [pyLowerChar, if_neg (h c hc)]

/-- C2 (amended): the normalizer is idempotent on every string whose
normalized form the URL-stripping pass leaves unchanged, that is,
whenever the normalized output does not itself contain an `http`/`www.`
URL occurrence. (The unrestricted claim is false: deleting a non-ASCII
character can splice a new URL occurrence together after URL stripping
already ran, as the counterexample shows.) -/
theorem normalize_idempotent_of_no_url {s : List Char}
    (h : urlStrip (normalize_text s) = normalize_text s) :
    normalize_text (normalize_text s) = normalize_text s := by
  have hfacts : ∀ c ∈ normalize_text s, c.toNat ≤ 0x7f ∧ ¬(65 ≤ c.toNat ∧ c.toNat ≤ 90) ∧
      c ∉ punctClass ∧ isNlChar c = false ∧ (isPySpace c = true → c = ' ') :=
    fun c hc => normalize_char_facts hc
  have hlower : pyLower (normalize_text s) = normalize_text s :=
    pyLower_eq_self fun c hc => (hfacts c hc).2.1
  have hascii : asciiFilter (normalize_text s) = normalize_text s :=
    asciiFilter_eq_self fun c hc => (hfacts c hc).1
  have hpunct : punctReplace (normalize_text s) = normalize_text s :=
    punctReplace_eq_self fun c hc => (hfacts c hc).2.2.1
  have hnl : nlCollapseAux false (normalize_text s) = normalize_text s :=
    nlCollapse_eq_self (fun c hc => (hfacts c hc).2.2.2.1) false
  conv_lhs => rw [normalize_text, hlower, h, hascii, hpunct, hnl]
  exact collapseTrim_eq_self (canonical_normalize s)

/-- C2 (counterexample): `normalize_text` is not idempotent. In
`"w•ww.x"` the URL pass finds no match, the non-ASCII pass then deletes
the bullet and splices together `"www.x"`, which a second normalization
strips to the empty string. -/
theorem normalize_not_idempotent :
    normalize_text (normalize_text "w•ww.x".data) ≠ normalize_text "w•ww.x".data := by
  decide

/-- C2 (witness): a concrete string satisfying the no-URL-remnant
hypothesis, on which idempotence therefore holds. -/
theorem normalize_idempotent_witness :
    urlStrip (normalize_text "Hello  World".data) = normalize_text "Hello  World".data ∧
    normalize_text (normalize_text "Hello  World".data) = normalize_text "Hello  World".data :=
  ⟨by decide, normalize_idempotent_of_no_url (by decide)⟩

/-- C3: the tier classifier is a total pure function whose tiers
partition all scores with inclusive lower bounds: at least 80 is Tier 1,
at least 60 and below 80 is Tier 2, at least 40 and below 60 is Tier 3,
below 40 is Tier 4; in particular 80 is Tier 1, 79.99 is Tier 2 and
39.99 is Tier 4. -/
theorem tier_partition :
    (∀ score : ℚ,
      (80 ≤ score ∧ get_confidence_tier score = ⟨"Tier 1 (Excellent Match)", "bg-success"⟩) ∨
      (60 ≤ score ∧ score < 80 ∧
        get_confidence_tier score = ⟨"Tier 2 (Strong Fit)", "bg-primary"⟩) ∨
      (40 ≤ score ∧ score < 60 ∧
        get_confidence_tier score = ⟨"Tier 3 (Average Fit)", "bg-warning text-dark"⟩) ∨
      (score < 40 ∧ get_confidence_tier score = ⟨"Tier 4 (Low Fit)", "bg-danger"⟩)) ∧
    get_confidence_tier 80 = ⟨"Tier 1 (Excellent Match)", "bg-success"⟩ ∧
    get_confidence_tier (7999 / 100) = ⟨"Tier 2 (Strong Fit)", "bg-primary"⟩ ∧
    get_confidence_tier (3999 / 100) = ⟨"Tier 4 (Low Fit)", "bg-danger"⟩ := by
  refine ⟨?_, by norm_num [get_confidence_tier], by norm_num [get_confidence_tier],
    by norm_num [get_confidence_tier]⟩
  intro q
  rw [get_confidence_tier]
  split_ifs with h1 h2 h3
  · exact Or.inl ⟨by linarith, rfl⟩
  · exact Or.inr (Or.inl ⟨by linarith, by linarith, rfl⟩)
  · exact Or.inr (Or.inr (Or.inl ⟨by linarith, by linarith, rfl⟩))
  · exact Or.inr (Or.inr (Or.inr ⟨by linarith, rfl⟩))

/-- C6 (amended): every normalizer output is ASCII-only, contains no
ASCII uppercase letter, no line-break character, every whitespace
character in it is a plain space with no two adjacent, and neither end
is whitespace. The no-URLs part of the invariant is dropped: it is
refuted by the counterexample, where the non-ASCII strip splices a
`www.` occurrence together after URL stripping already ran. -/
theorem normalized_invariant (s : List Char) :
    (∀ c ∈ normalize_text s, c.toNat ≤ 0x7f) ∧
    (∀ c ∈ normalize_text s, ¬(65 ≤ c.toNat ∧ c.toNat ≤ 90)) ∧
    (∀ c ∈ normalize_text s, isNlChar c = false) ∧
    (∀ c ∈ normalize_text s, isPySpace c = true → c = ' ') ∧
    List.Chain' (fun a b => ¬(a = ' ' ∧ b = ' ')) (normalize_text s) ∧
    (∀ c, (normalize_text s).head? = some c → isPySpace c = false) ∧
    (∀ c, (normalize_text s).getLast? = some c → isPySpace c = false) := by
  obtain ⟨hblank, hchain, hhead, hlast⟩ := canonical_normalize s
  refine ⟨fun c hc => (normalize_char_facts hc).1,
    fun c hc => (normalize_char_facts hc).2.1,
    fun c hc => (normalize_char_facts hc).2.2.2.1,
    hblank, ?_, hhead, hlast⟩
  refine hchain.imp ?_
  intro a b hab hcon
  exact hab ⟨by rw [hcon.1]; decide, by rw [hcon.2]; decide⟩

/-- C6 (counterexample): the no-URLs clause of the invariant fails: the
normalization of `"x w•ww.a"` is `"x www.a"`, which contains the
substring `"www."` (at offset 2). -/
theorem normalized_url_counterexample :
    normalize_text "x w•ww.a".data = "x www.a".data ∧
    List.take 4 (List.drop 2 (normalize_text "x w•ww.a".data)) = "www.".data := by
  decide

/-- C6 (witness): the invariant at a concrete input. -/
theorem normalized_invariant_witness :
    ∀ c ∈ normalize_text "Crème  Brûlée\n•x".data, c.toNat ≤ 0x7f :=
  (normalized_invariant "Crème  Brûlée\n•x".data).1

/-- C7 (amended): of the replacement class `[-*•–—:]` only the ASCII
characters `-`, `*`, `:` can reach the replacement step, and each is
replaced by a single space; the non-ASCII `•`, `–`, `—` are deleted by
the preceding non-ASCII strip, so they vanish without leaving a space:
`normalize("a-b") = "a b"` but `normalize("a•b") = "ab"`. -/
theorem punct_replacement_amended :
    normalize_text "a-b".data = "a b".data ∧
    normalize_text "a*b".data = "a b".data ∧
    normalize_text "a:b".data = "a b".data ∧
    normalize_text "a•b".data = "ab".data ∧
    normalize_text "a–b".data = "ab".data ∧
    normalize_text "a—b".data = "ab".data ∧
    (∀ c ∈ punctClass, c.toNat ≤ 0x7f → punctChar c = ' ') ∧
    (∀ c ∈ punctClass, 0x7f < c.toNat → asciiFilter [c] = []) := by
  refine ⟨by decide, by decide, by decide, by decide, by decide, by decide, ?_, ?_⟩
  · intro c hc _
    rw [punctChar, if_pos hc]
  · intro c _ hc
    rw [asciiFilter]
    simp only [List.filter_cons, List.filter_nil, decide_eq_true_eq]
    rw [if_neg (by omega)]

/-- C7 (counterexample): `normalize_text "a•b"` is `"ab"`, not the
`"a b"` the claim requires. -/
theorem punct_replacement_counterexample :
    normalize_text "a•b".data = "ab".data ∧ normalize_text "a•b".data ≠ "a b".data := by
  decide

/-- C7 (witness): the amended statement at concrete characters. -/
theorem punct_replacement_witness :
    punctChar ':' = ' ' ∧ asciiFilter ['•'] = [] := by
  have h := punct_replacement_amended
  exact ⟨h.2.2.2.2.2.2.1 ':' (by decide) (by decide),
    h.2.2.2.2.2.2.2 '•' (by decide) (by decide)⟩

lemma insertDesc_perm (x : MatchResult) (l : List MatchResult) :
    List.Perm (insertDesc x l) (x :: l) := by
  induction l with
  | nil => exact List.Perm.refl _
  | cons y ys ih =>
    rw [insertDesc]
    by_cases h : x.score ≥ y.score
    · rw [if_pos h]
    · rw [if_neg h]
      exact (ih.cons y).trans (List.Perm.swap x y ys)

lemma sortByScoreDesc_perm (l : List MatchResult) :
    List.Perm (sortByScoreDesc l) l := by
  induction l with
  | nil => exact List.Perm.refl _
  | cons x xs ih =>
    rw [sortByScoreDesc]
    exact (insertDesc_perm x (sortByScoreDesc xs)).trans (ih.cons x)

lemma insertDesc_head (x : MatchResult) (l : List MatchResult) :
    (insertDesc x l).head? = some x ∨ (insertDesc x l).head? = l.head? := by
  cases l with
  | nil => exact Or.inl rfl
  | cons y ys =>
    rw [insertDesc]
    by_cases h : x.score ≥ y.score
    · rw [if_pos h]
      exact Or.inl rfl
    · rw [if_neg h]
      exact Or.inr rfl

lemma insertDesc_sorted {x : MatchResult} {l : List MatchResult}
    (h : List.Chain' (fun a b => b.score ≤ a.score) l) :
    List.Chain' (fun a b => b.score ≤ a.score) (insertDesc x l) := by
  induction l with
  | nil => simp [insertDesc]
  | cons y ys ih =>
    rw [insertDesc]
    by_cases hxy : x.score ≥ y.score
    · rw [if_pos hxy]
      exact List.chain'_cons'.mpr ⟨fun z hz => by
        rw [List.head?_cons, Option.mem_def, Option.some.injEq] at hz
        rw [← hz]
        exact hxy, h⟩
    · rw [if_neg hxy]
      have htail := ih h.tail
      refine List.chain'_cons'.mpr ⟨?_, htail⟩
      intro z hz
      rcases insertDesc_head x ys with hh | hh
      · rw [hh, Option.mem_def, Option.some.injEq] at hz
        rw [← hz]
        exact le_of_not_ge hxy
      · rw [hh] at hz
        exact (List.chain'_cons'.mp h).1 z hz

lemma sortByScoreDesc_sorted (l : List MatchResult) :
    List.Chain' (fun a b => b.score ≤ a.score) (sortByScoreDesc l) := by
  induction l with
  | nil => simp [sortByScoreDesc]
  | cons x xs ih =>
    rw [sortByScoreDesc]
    exact insertDesc_sorted ih

lemma insertDesc_filter (x : MatchResult) (l : List MatchResult) (q : ℚ)
    (hsorted : List.Chain' (fun a b => b.score ≤ a.score) l) :
    (insertDesc x l).filter (fun r => decide (r.score = q)) =
      if x.score = q then x :: l.filter (fun r => decide (r.score = q))
      else l.filter (fun r => decide (r.score = q)) := by
  induction l with
  | nil =>
    rw [insertDesc]
    by_cases h : x.score = q <;> simp [h]
  | cons y ys ih =>
    rw [insertDesc]
    by_cases hxy : x.score ≥ y.score
    · rw [if_pos hxy]
      by_cases h : x.score = q <;> simp [List.filter_cons, h]
    · rw [if_neg hxy]
      have hyx : x.score < y.score := lt_of_not_ge hxy
      rw [List.filter_cons, ih hsorted.tail]
      by_cases h : x.score = q
      · have hy : ¬(y.score = q) := by
          intro hcon
          rw [← h] at hcon
          exact absurd hcon (ne_of_gt hyx)
        simp [h, hy, List.filter_cons]
      · simp [h, List.filter_cons]

lemma sortByScoreDesc_filter (l : List MatchResult) (q : ℚ) :
    (sortByScoreDesc l).filter (fun r => decide (r.score = q)) =
      l.filter (fun r => decide (r.score = q)) := by
  induction l with
  | nil => rfl
  | cons x xs ih =>
    rw [sortByScoreDesc, insertDesc_filter x _ q (sortByScoreDesc_sorted xs), List.filter_cons]
    by_cases h : x.score = q
    · rw [if_pos h, ih]
      simp [h]
    · rw [if_neg h, ih]
      simp [h]

/-- C4: the ranking sort used by the `matcher` route is a permutation
of the assembled results, is descending by score, and is stable: for
any score value, the results carrying that score appear in exactly
their original (upload) order. -/
theorem ranking_sorted_stable (l : List MatchResult) :
    List.Perm (sortByScoreDesc l) l ∧
    List.Chain' (fun a b => b.score ≤ a.score) (sortByScoreDesc l) ∧
    (∀ q : ℚ, (sortByScoreDesc l).filter (fun r => decide (r.score = q)) =
      l.filter (fun r => decide (r.score = q))) :=
  ⟨sortByScoreDesc_perm l, sortByScoreDesc_sorted l, fun q => sortByScoreDesc_filter l q⟩

/-- C5: the text extractor is total at its interface: an unsupported
extension yields the empty string, and for each supported extension any
extraction failure (a raised exception, modelled by the oracle
returning `none`) also yields the empty string; the embedding returns a
plain string in every case, so no exception reaches the caller and one
bad file cannot abort the batch. -/
theorem extract_text_total (fs : FileSystem) (path : List Char) :
    (kindOf path = .other → extract_text fs path = "") ∧
    (kindOf path = .pdf → fs.pdfOpen path = none → extract_text fs path = "") ∧
    (kindOf path = .docx → fs.docxProcess path = none → extract_text fs path = "") ∧
    (kindOf path = .txt → fs.readTxt path = none → extract_text fs path = "") := by
  refine ⟨?_, ?_, ?_, ?_⟩
  · intro hk
    rw [extract_text, hk]
  · intro hk hn
    rw [extract_text, hk, extract_text_from_pdf, hn]
  · intro hk hn
    rw [extract_text, hk, extract_text_from_docx, hn]
  · intro hk hn
    rw [extract_text, hk, extract_text_from_txt, hn]

/-- C5 (witness): an unsupported extension and a failing PDF library
call both yield the empty string. -/
theorem extract_text_total_witness :
    kindOf "archive.exe".data = .other ∧
    extract_text ⟨fun _ => none, fun _ => none, fun _ => none⟩ "archive.exe".data = "" ∧
    kindOf "cv.pdf".data = .pdf ∧
    extract_text ⟨fun _ => none, fun _ => none, fun _ => none⟩ "cv.pdf".data = "" :=
  ⟨by decide, (extract_text_total _ _).1 (by decide), by decide,
    (extract_text_total _ _).2.1 (by decide) rfl⟩

lemma pyLowerChar_idem (c : Char) : pyLowerChar (pyLowerChar c) = pyLowerChar c := by
  have h2 := pyLowerChar_not_upper c
  rw [show pyLowerChar (pyLowerChar c) =
    if 65 ≤ (pyLowerChar c).toNat ∧ (pyLowerChar c).toNat ≤ 90 then
      Char.ofNat ((pyLowerChar c).toNat + 32)
    else pyLowerChar c from rfl, if_neg h2]

lemma pyLower_idem (s : List Char) : pyLower (pyLower s) = pyLower s := by
  rw [pyLower, pyLower, List.map_map]
  exact List.map_congr_left fun c _ => pyLowerChar_idem c

/-- C10: extension dispatch is case-insensitive: dispatching any path
gives the same outcome as dispatching its lower-cased form, upper-cased
extensions `.PDF`, `.Docx`, `.TXT` are classified like their lower-case
forms, and a path classified as pdf/docx/txt is handed to the
corresponding extraction routine rather than extracting to empty
text. -/
theorem dispatch_case_insensitive :
    (∀ path : List Char, kindOf (pyLower path) = kindOf path) ∧
    kindOf "r.PDF".data = .pdf ∧
    kindOf "r.Docx".data = .docx ∧
    kindOf "r.TXT".data = .txt ∧
    (∀ (fs : FileSystem) (path : List Char),
      (kindOf path = .pdf → extract_text fs path = extract_text_from_pdf fs path) ∧
      (kindOf path = .docx → extract_text fs path = extract_text_from_docx fs path) ∧
      (kindOf path = .txt → extract_text fs path = extract_text_from_txt fs path)) := by
  refine ⟨?_, by decide, by decide, by decide, ?_⟩
  · intro path
    rw [kindOf, kindOf, pyLower_idem]
  · intro fs path
    refine ⟨?_, ?_, ?_⟩ <;> intro hk <;> rw [extract_text, hk]

/-- C10 (witness): dispatch invariance and pdf routing at concrete
upper-cased paths. -/
theorem dispatch_case_insensitive_witness :
    kindOf (pyLower "A.PdF".data) = kindOf "A.PdF".data ∧
    extract_text ⟨fun _ => some [some "body"], fun _ => none, fun _ => none⟩ "b.PDF".data =
      extract_text_from_pdf ⟨fun _ => some [some "body"], fun _ => none, fun _ => none⟩
        "b.PDF".data :=
  ⟨dispatch_case_insensitive.1 "A.PdF".data,
    (dispatch_case_insensitive.2.2.2.2 _ "b.PDF".data).1 (by decide)⟩

/-- C9: a missing job description aborts the request with its own
message; a batch with no files, or only empty filenames, aborts with a
different message; both abort before any scoring (the route returns the
error and nothing else), and the two messages are distinct. -/
theorem validation_errors (fs : FileSystem) (req : MatcherRequest) :
    (req.job_description = "" → matcher fs req = .error jdErrorMsg) ∧
    (req.job_description ≠ "" →
      (req.resume_files = [] ∨ ∀ f ∈ req.resume_files, f = "") →
      matcher fs req = .error filesErrorMsg) ∧
    jdErrorMsg ≠ filesErrorMsg := by
  refine ⟨?_, ?_, by decide⟩
  · intro h
    rw [matcher, if_pos h]
  · intro h1 h2
    rw [matcher, if_neg h1, if_pos ?_]
    rcases h2 with h2 | h2
    · simp [h2]
    · simp only [Bool.or_eq_true, List.all_eq_true, beq_iff_eq]
      exact Or.inr h2

/-- C9 (witness): the two validation failures at concrete requests. -/
theorem validation_errors_witness :
    matcher ⟨fun _ => none, fun _ => none, fun _ => none⟩
      ⟨"", ["r.txt"]⟩ = .error jdErrorMsg ∧
    matcher ⟨fun _ => none, fun _ => none, fun _ => none⟩
      ⟨"hire a dev", []⟩ = .error filesErrorMsg :=
  ⟨(validation_errors _ _).1 rfl,
    (validation_errors _ _).2.1 (by decide) (Or.inl rfl)⟩

/-- C1: when the corpus' combined vocabulary is empty after stop-word
removal, the engine raises (the vectorizer's `ValueError`, which the
route does not catch), so the request fails with a message distinct
from both validation messages and never returns a result list of
all-zero scores. -/
theorem empty_vocabulary_error (fs : FileSystem) (req : MatcherRequest)
    (h1 : req.job_description ≠ "")
    (h2 : ¬(req.resume_files.isEmpty || req.resume_files.all (fun f => f == "")) = true)
    (h3 : vocabOf (corpusOf fs req) = []) :
    matcher fs req = .error emptyVocabMsg ∧
    (∀ resp, matcher fs req ≠ .ok resp) ∧
    emptyVocabMsg ≠ jdErrorMsg ∧ emptyVocabMsg ≠ filesErrorMsg := by
  have hm : matcher fs req = .error emptyVocabMsg := by
    rw [matcher, if_neg h1, if_neg h2, simEngine.eq_def, if_pos h3]
  exact ⟨hm, fun resp hcon => by rw [hm] at hcon; exact Except.noConfusion hcon,
    by decide, by decide⟩

/-- C1 (witness): a job description that tokenizes to nothing (a single
one-letter word) and one unsupported resume file give an empty
vocabulary, and the matcher errors with the vectorizer's message. -/
theorem empty_vocabulary_error_witness :
    vocabOf (corpusOf ⟨fun _ => none, fun _ => none, fun _ => none⟩
      ⟨"a", ["r.xyz"]⟩) = [] ∧
    matcher ⟨fun _ => none, fun _ => none, fun _ => none⟩
      ⟨"a", ["r.xyz"]⟩ = .error emptyVocabMsg :=
  ⟨by decide,
    (empty_vocabulary_error _ _ (by decide) (by decide) (by decide)).1⟩

lemma halfEvenInt_nonneg {x : ℝ} (h : 0 ≤ x) : 0 ≤ halfEvenInt x := by
  have hf : (0 : ℤ) ≤ ⌊x⌋ := Int.floor_nonneg.mpr h
  rw [halfEvenInt]
  split_ifs <;> omega

lemma halfEvenInt_le {x : ℝ} {n : ℤ} (h : x ≤ n) : halfEvenInt x ≤ n := by
  have hf : ⌊x⌋ ≤ n := by
    have h2 : ⌊x⌋ ≤ ⌊(n : ℝ)⌋ := Int.floor_le_floor h
    simpa using h2
  rw [halfEvenInt]
  by_cases heq : ⌊x⌋ = n
  · have hlt : x - ⌊x⌋ < 1 / 2 := by
      have : (⌊x⌋ : ℝ) = n := by exact_mod_cast heq
      have hx : x - ⌊x⌋ ≤ 0 := by rw [this]; linarith
      linarith
    rw [if_pos hlt]
    omega
  · split_ifs <;> omega

lemma pyRound2_nonneg {v : ℝ} (h : 0 ≤ v) : 0 ≤ pyRound2 v := by
  rw [pyRound2]
  have := halfEvenInt_nonneg (x := v * 100) (by positivity)
  positivity

lemma pyRound2_le_100 {v : ℝ} (h : v ≤ 100) : pyRound2 v ≤ 100 := by
  rw [pyRound2]
  have h1 : halfEvenInt (v * 100) ≤ (10000 : ℤ) := halfEvenInt_le (by push_cast; linarith)
  have h2 : (halfEvenInt (v * 100) : ℚ) ≤ 10000 := by exact_mod_cast h1
  linarith

lemma dotL_map (f g : String → ℝ) (l : List String) :
    dotL (l.map f) (l.map g) = (l.map (fun t => f t * g t)).sum := by
  induction l with
  | nil => rfl
  | cons a as ih =>
    simp only [List.map_cons, dotL, List.zipWith_cons_cons, List.sum_cons] at ih ⊢
    rw [ih]

lemma list_sum_map_sq_cauchy (l : List String) (f g : String → ℝ) :
    (l.map (fun t => f t * g t)).sum ^ 2 ≤
      (l.map (fun t => f t * f t)).sum * (l.map (fun t => g t * g t)).sum := by
  have hrw : ∀ h : String → ℝ, (l.map h).sum = ∑ i : Fin l.length, h (l.get i) := by
    intro h
    conv_lhs => rw [← List.ofFn_get l]
    rw [List.map_ofFn, List.sum_ofFn]
    simp
  rw [hrw, hrw, hrw]
  have := Finset.sum_mul_sq_le_sq_mul_sq Finset.univ
    (fun i : Fin l.length => f (l.get i)) (fun i : Fin l.length => g (l.get i))
  calc (∑ i : Fin l.length, f (l.get i) * g (l.get i)) ^ 2
      ≤ (∑ i : Fin l.length, f (l.get i) ^ 2) * ∑ i : Fin l.length, g (l.get i) ^ 2 := this
    _ = (∑ i : Fin l.length, f (l.get i) * f (l.get i)) *
        ∑ i : Fin l.length, g (l.get i) * g (l.get i) := by
        simp [sq]

lemma cosineSimilarity_bounds (l : List String) (f g : String → ℝ)
    (hf : ∀ t, 0 ≤ f t) (hg : ∀ t, 0 ≤ g t) :
    0 ≤ cosineSimilarity (l.map f) (l.map g) ∧ cosineSimilarity (l.map f) (l.map g) ≤ 1 := by
  rw [cosineSimilarity]
  by_cases h : dotL (l.map f) (l.map f) = 0 ∨ dotL (l.map g) (l.map g) = 0
  · rw [if_pos h]
    exact ⟨le_refl 0, zero_le_one⟩
  · rw [if_neg h]
    push_neg at h
    have hff : 0 ≤ dotL (l.map f) (l.map f) := by
      rw [dotL_map]
      exact List.sum_nonneg fun x hx => by
        obtain ⟨t, _, ht⟩ := List.mem_map.mp hx
        rw [← ht]
        exact mul_nonneg (hf t) (hf t)
    have hgg : 0 ≤ dotL (l.map g) (l.map g) := by
      rw [dotL_map]
      exact List.sum_nonneg fun x hx => by
        obtain ⟨t, _, ht⟩ := List.mem_map.mp hx
        rw [← ht]
        exact mul_nonneg (hg t) (hg t)
    have hfg : 0 ≤ dotL (l.map f) (l.map g) := by
      rw [dotL_map]
      exact List.sum_nonneg fun x hx => by
        obtain ⟨t, _, ht⟩ := List.mem_map.mp hx
        rw [← ht]
        exact mul_nonneg (hf t) (hg t)
    have hffpos : 0 < dotL (l.map f) (l.map f) := lt_of_le_of_ne hff (Ne.symm h.1)
    have hggpos : 0 < dotL (l.map g) (l.map g) := lt_of_le_of_ne hgg (Ne.symm h.2)
    have hden : 0 < Real.sqrt (dotL (l.map f) (l.map f)) *
        Real.sqrt (dotL (l.map g) (l.map g)) :=
      mul_pos (Real.sqrt_pos.mpr hffpos) (Real.sqrt_pos.mpr hggpos)
    constructor
    · exact div_nonneg hfg (le_of_lt hden)
    · rw [div_le_one hden]
      have hcs : dotL (l.map f) (l.map g) ^ 2 ≤
          dotL (l.map f) (l.map f) * dotL (l.map g) (l.map g) := by
        rw [dotL_map, dotL_map, dotL_map]
        exact list_sum_map_sq_cauchy l f g
      calc dotL (l.map f) (l.map g)
          = Real.sqrt (dotL (l.map f) (l.map g) ^ 2) := (Real.sqrt_sq hfg).symm
        _ ≤ Real.sqrt (dotL (l.map f) (l.map f) * dotL (l.map g) (l.map g)) :=
            Real.sqrt_le_sqrt hcs
        _ = Real.sqrt (dotL (l.map f) (l.map f)) * Real.sqrt (dotL (l.map g) (l.map g)) :=
            Real.sqrt_mul hff _

lemma idfOf_nonneg (docs : List (List Char)) (t : String) : 0 ≤ idfOf docs t := by
  rw [idfOf]
  have hdf : (dfOf docs t : ℝ) ≤ (docs.length : ℝ) := by
    exact_mod_cast List.countP_le_length (p := fun d => (docTokens d).contains t)
  have harg : (1 : ℝ) ≤ (1 + docs.length) / (1 + dfOf docs t) := by
    rw [le_div_iff₀ (by positivity)]
    linarith
  have := Real.log_nonneg harg
  linarith

lemma tfidf_weight_nonneg (docs : List (List Char)) (d : List Char) (t : String) :
    0 ≤ ((docTokens d).count t : ℝ) * idfOf docs t :=
  mul_nonneg (by positivity) (idfOf_nonneg docs t)

lemma simEngine_bounds {docs : List (List Char)} {sims : List ℝ}
    (h : simEngine docs = .ok sims) : ∀ s ∈ sims, 0 ≤ s ∧ s ≤ 1 := by
  rw [simEngine.eq_def] at h
  split at h
  · exact absurd h (by simp)
  · split at h
    · simp only [Except.ok.injEq] at h
      subst h
      intro s hs
      exact absurd hs (List.not_mem_nil s)
    · simp only [Except.ok.injEq] at h
      subst h
      intro s hs
      obtain ⟨d, _, hd⟩ := List.mem_map.mp hs
      rw [← hd, tfidfVec, tfidfVec]
      exact cosineSimilarity_bounds _ _ _
        (fun t => tfidf_weight_nonneg _ _ t) (fun t => tfidf_weight_nonneg _ _ t)

/-- C8: on a successful similarity run each raw cosine similarity lies
in [0,1], and the MatchResult assembled at each position carries as its
score exactly that resume's similarity scaled by 100 and rounded to two
decimals (ties to even), which therefore lies in [0,100]. -/
theorem score_scaled_rounded_bounds (docs : List (List Char)) (sims : List ℝ)
    (names : List String) (h : simEngine docs = .ok sims)
    (i : ℕ) (hs : i < sims.length) (hn : i < names.length)
    (hi : i < (assembleResults names sims).length) :
    0 ≤ sims.get ⟨i, hs⟩ ∧ sims.get ⟨i, hs⟩ ≤ 1 ∧
    ((assembleResults names sims).get ⟨i, hi⟩).score = pyRound2 (sims.get ⟨i, hs⟩ * 100) ∧
    0 ≤ ((assembleResults names sims).get ⟨i, hi⟩).score ∧
    ((assembleResults names sims).get ⟨i, hi⟩).score ≤ 100 := by
  have hb := simEngine_bounds h (sims.get ⟨i, hs⟩) (sims.get_mem i hs)
  have hget : (assembleResults names sims).get ⟨i, hi⟩ =
      { name := names.get ⟨i, hn⟩,
        score := pyRound2 (sims.get ⟨i, hs⟩ * 100),
        tier_label := (get_confidence_tier (pyRound2 (sims.get ⟨i, hs⟩ * 100))).label,
        tier_style := (get_confidence_tier (pyRound2 (sims.get ⟨i, hs⟩ * 100))).style } := by
    unfold assembleResults at hi ⊢
    simp [List.getElem_zipWith]
  rw [hget]
  refine ⟨hb.1, hb.2, rfl, ?_, ?_⟩
  · exact pyRound2_nonneg (by nlinarith [hb.1])
  · exact pyRound2_le_100 (by nlinarith [hb.2, hb.1])

lemma idfOf_pair_zz : idfOf [['z', 'z'], ['z', 'z']] "zz" = 1 := by
  rw [idfOf]
  have h1 : dfOf [['z', 'z'], ['z', 'z']] "zz" = 2 := by decide
  rw [h1]
  norm_num [Real.log_one]

lemma tfidfVec_pair_zz : tfidfVec [['z', 'z'], ['z', 'z']] ['z', 'z'] = [1] := by
  rw [tfidfVec]
  have hv : vocabOf [['z', 'z'], ['z', 'z']] = ["zz"] := by decide
  rw [hv]
  have hc : (docTokens ['z', 'z']).count "zz" = 1 := by decide
  simp [hc, idfOf_pair_zz]

lemma cosineSimilarity_one_one : cosineSimilarity [(1 : ℝ)] [(1 : ℝ)] = 1 := by
  rw [cosineSimilarity]
  have hd : dotL [(1 : ℝ)] [(1 : ℝ)] = 1 := by
    simp [dotL]
  rw [if_neg (by rw [hd]; norm_num)]
  rw [hd]
  simp [Real.sqrt_one]

lemma simEngine_pair_zz : simEngine [['z', 'z'], ['z', 'z']] = .ok [1] := by
  rw [simEngine.eq_def]
  rw [if_neg (by decide)]
  simp only [List.map_cons, List.map_nil]
  rw [tfidfVec_pair_zz, cosineSimilarity_one_one]

/-- C8 (witness): a job description and a resume that are the same
two-letter word give cosine similarity 1, and the assembled result's
score is `round(1 * 100, 2)`, within bounds. -/
theorem score_scaled_rounded_bounds_witness :
    ((assembleResults ["resume.txt"] [(1 : ℝ)]).get
      ⟨0, by unfold assembleResults; simp⟩).score = pyRound2 ((1 : ℝ) * 100) ∧
    0 ≤ ((assembleResults ["resume.txt"] [(1 : ℝ)]).get
      ⟨0, by unfold assembleResults; simp⟩).score := by
  have h := score_scaled_rounded_bounds [['z', 'z'], ['z', 'z']] [1] ["resume.txt"]
    simEngine_pair_zz 0 (by norm_num) (by norm_num) (by unfold assembleResults; simp)
  exact ⟨h.2.2.1, h.2.2.2.1⟩

end ResumeMatcher
